import Mathlib

/-!
Shallow embedding of the chat-server core from `chat.go` (package main of
DGU_CP_GoChatServer), and proofs of the specification's claims about it.

The per-room actor (`Chatroom`, chat.go lines 84-135) owns an archive
(linked list of events, capped at 20) and a subscriber list (linked list of
buffered channels).  We model a channel by a natural-number identity plus
the ordered list of events the actor has sent on it; the actor state is the
archive, the membership list (channel ids in insertion order), the table of
all channels ever created, and a fresh-id counter standing for channel
allocation.  The three `select` cases of the loop become three pure step
functions, and a run of the actor is a left fold of steps over a request
list.  The register/login socket handlers (chat.go lines 147-240) are
modelled over an association list standing for the `chatRooms` map.
-/

namespace GoChat

/-- Event struct, chat.go lines 26-31. -/
structure Event where
  EvtType : String
  User : String
  Timestamp : Int
  Text : String
deriving DecidableEq, Repr

/-- A buffered channel as observed from the actor side: its buffer capacity
(`make(chan Event, 10)`, chat.go line 101) and the ordered list of events the
actor has sent on it. -/
structure Handle where
  capacity : Nat
  delivered : List Event
deriving DecidableEq, Repr

/-- Subscription struct, chat.go lines 34-38: the archive snapshot and the
live channel (represented by its id). -/
structure Subscription where
  Archive : List Event
  New : Nat
deriving DecidableEq, Repr

/-- State owned by one `Chatroom` actor: `archive` and `subscribers` are the
two linked lists of chat.go lines 85-86; `handles` records every channel ever
created by a subscribe (keyed by id, kept even after unsubscription, since the
channel object outlives its membership); `nextId` is the allocator for fresh
channel identities. -/
structure RoomState where
  archive : List Event
  members : List Nat
  handles : List (Nat × Handle)
  nextId : Nat
deriving DecidableEq, Repr

/-- First-match association-list lookup (Go map read). -/
def assocFind [DecidableEq α] (k : α) : List (α × β) → Option β
  | [] => none
  | p :: rest => if p.1 = k then some p.2 else assocFind k rest

/-- Association-list update-or-insert (Go map write `m[k] = v`). -/
def assocUpdate [DecidableEq α] (k : α) (v : β) : List (α × β) → List (α × β)
  | [] => [(k, v)]
  | p :: rest => if p.1 = k then (k, v) :: rest else p :: assocUpdate k v rest

/-- Removal of the first matching element, mirroring the unsubscribe loop of
chat.go lines 125-132: scan the subscriber list, remove the first channel
equal to the presented one, `break`. -/
def removeFirst [DecidableEq α] : List α → α → List α
  | [], _ => []
  | x :: xs, a => if x = a then xs else x :: removeFirst xs a

/-- The state at `Chatroom` start-up (chat.go lines 85-86): empty archive,
no subscribers. -/
def initRoomState : RoomState := ⟨[], [], [], 0⟩

/-- The subscribe case of the actor loop, chat.go lines 92-106: copy the
archive front-to-back into a slice, create a fresh channel with buffer
capacity 10, push it onto the subscriber list, reply with the
`Subscription`. -/
def subscribeStep (s : RoomState) : Subscription × RoomState :=
  (⟨s.archive, s.nextId⟩,
   ⟨s.archive, s.members ++ [s.nextId], s.handles ++ [(s.nextId, ⟨10, []⟩)],
    s.nextId + 1⟩)

/-- The archive update of the publish case, chat.go lines 118-122: if the
list already holds at least 20 events remove the front, then push the new
event at the back. -/
def pushArchive (archive : List Event) (e : Event) : List Event :=
  (if 20 ≤ archive.length then archive.tail else archive) ++ [e]

/-- The publish case of the actor loop, chat.go lines 108-122: send the event
on every channel currently in the subscriber list, then update the archive
with `pushArchive`.  A channel receives the event exactly when its id is in
the membership list. -/
def publishStep (s : RoomState) (e : Event) : RoomState :=
  ⟨pushArchive s.archive e,
   s.members,
   s.handles.map (fun p =>
     if p.1 ∈ s.members then (p.1, ⟨p.2.capacity, p.2.delivered ++ [e]⟩) else p),
   s.nextId⟩

/-- The unsubscribe case of the actor loop, chat.go lines 124-132: remove the
first channel in the subscriber list equal to the presented one (the channel
table is untouched: the channel object still exists). -/
def unsubscribeStep (s : RoomState) (id : Nat) : RoomState :=
  ⟨s.archive, removeFirst s.members id, s.handles, s.nextId⟩

/-- One request arriving at the actor's `select`. -/
inductive Req where
  | subscribe
  | publish (e : Event)
  | unsubscribe (id : Nat)
deriving DecidableEq, Repr

/-- Processing one request (one iteration of the `for`/`select` loop,
chat.go lines 90-133). -/
def stepReq (s : RoomState) : Req → RoomState
  | .subscribe => (subscribeStep s).2
  | .publish e => publishStep s e
  | .unsubscribe id => unsubscribeStep s id

/-- Running the actor from state `s` over a serialized request list. -/
def runFrom (s : RoomState) : List Req → RoomState
  | [] => s
  | r :: rest => runFrom (stepReq s r) rest

/-- Running the actor from its start-up state. -/
def run (reqs : List Req) : RoomState := runFrom initRoomState reqs

/-- The events published in a request list, in order: the room's publish
history. -/
def historyOf : List Req → List Event
  | [] => []
  | .publish e :: rest => e :: historyOf rest
  | .subscribe :: rest => historyOf rest
  | .unsubscribe _ :: rest => historyOf rest

/-- The last `n` elements of a list. -/
def lastN (n : Nat) (l : List α) : List α := l.drop (l.length - n)

/-- The events so far delivered on channel `id` of room state `s`, in
delivery order. -/
def queueOf (s : RoomState) (id : Nat) : List Event :=
  match assocFind id s.handles with
  | some h => h.delivered
  | none => []

/-! ### Archive lemmas -/

theorem lastN_of_le (n : Nat) (l : List α) (h : l.length ≤ n) : lastN n l = l := by
  simp [lastN, Nat.sub_eq_zero_of_le h]

theorem length_lastN (n : Nat) (l : List α) : (lastN n l).length = min n l.length := by
  simp [lastN]
  omega

/-- Pushing one event onto the capped archive keeps it equal to the last 20
events of the history. -/
theorem pushArchive_lastN (h : List Event) (e : Event) :
    pushArchive (lastN 20 h) e = lastN 20 (h ++ [e]) := by
  rcases Nat.lt_or_ge h.length 20 with hl | hl
  · rw [lastN_of_le 20 h (Nat.le_of_lt hl)]
    have h1 : ¬ 20 ≤ h.length := Nat.not_le_of_lt hl
    have h2 : (h ++ [e]).length ≤ 20 := by simp; omega
    rw [lastN_of_le 20 (h ++ [e]) h2]
    simp [pushArchive, h1]
  · have hlen : (lastN 20 h).length = 20 := by rw [length_lastN]; omega
    have h1 : 20 ≤ (lastN 20 h).length := Nat.le_of_eq hlen.symm
    have h2 : h.length + 1 - 20 = (h.length - 20) + 1 := by omega
    have h3 : h.length + 1 - 20 ≤ h.length := by omega
    calc pushArchive (lastN 20 h) e
        = (h.drop (h.length - 20)).tail ++ [e] := by
            rw [pushArchive, if_pos h1]; rfl
      _ = h.drop (h.length - 20 + 1) ++ [e] := by rw [List.tail_drop]
      _ = h.drop (h.length + 1 - 20) ++ [e] := by rw [h2]
      _ = (h ++ [e]).drop (h.length + 1 - 20) := by
            rw [List.drop_append_of_le_length h3]
      _ = lastN 20 (h ++ [e]) := by simp [lastN]

theorem historyOf_subscribe (rest : List Req) :
    historyOf (Req.subscribe :: rest) = historyOf rest := rfl

theorem historyOf_publish (e : Event) (rest : List Req) :
    historyOf (Req.publish e :: rest) = e :: historyOf rest := rfl

theorem historyOf_unsubscribe (id : Nat) (rest : List Req) :
    historyOf (Req.unsubscribe id :: rest) = historyOf rest := rfl

/-- Invariant transport: if the archive equals the last 20 events of the
history accumulated so far, it still does after any further requests. -/
theorem archive_runFrom (reqs : List Req) :
    ∀ (s : RoomState) (h : List Event), s.archive = lastN 20 h →
      (runFrom s reqs).archive = lastN 20 (h ++ historyOf reqs) := by
  induction reqs with
  | nil => intro s h hs; simpa [runFrom, historyOf] using hs
  | cons r rest ih =>
    intro s h hs
    cases r with
    | subscribe =>
      rw [runFrom, historyOf_subscribe]
      exact ih _ h (by simpa [stepReq, subscribeStep] using hs)
    | publish e =>
      rw [runFrom, historyOf_publish]
      have step : (stepReq s (Req.publish e)).archive = lastN 20 (h ++ [e]) := by
        simp only [stepReq, publishStep, hs]
        exact pushArchive_lastN h e
      have := ih (stepReq s (Req.publish e)) (h ++ [e]) step
      simpa [List.append_assoc] using this
    | unsubscribe id =>
      rw [runFrom, historyOf_unsubscribe]
      exact ih _ h (by simpa [stepReq, unsubscribeStep] using hs)

theorem archive_run (reqs : List Req) :
    (run reqs).archive = lastN 20 (historyOf reqs) := by
  have := archive_runFrom reqs initRoomState [] (by simp [initRoomState, lastN])
  simpa using this

/-! ### Association-list lemmas -/

theorem assocFind_append [DecidableEq α] (k : α) (l l2 : List (α × β)) :
    assocFind k (l ++ l2) =
      match assocFind k l with
      | some v => some v
      | none => assocFind k l2 := by
  induction l with
  | nil => simp [assocFind]
  | cons p rest ih =>
    by_cases hp : p.1 = k
    · simp [assocFind, hp]
    · simpa [assocFind, hp] using ih

theorem assocFind_update_self [DecidableEq α] (k : α) (v : β) (l : List (α × β)) :
    assocFind k (assocUpdate k v l) = some v := by
  induction l with
  | nil => simp [assocUpdate, assocFind]
  | cons p rest ih =>
    by_cases hp : p.1 = k
    · simp [assocUpdate, hp, assocFind]
    · simpa [assocUpdate, hp, assocFind] using ih

theorem assocFind_update_ne [DecidableEq α] (k k2 : α) (v : β) (l : List (α × β))
    (h : k2 ≠ k) : assocFind k2 (assocUpdate k v l) = assocFind k2 l := by
  have h1 : ¬ k = k2 := fun hh => h hh.symm
  induction l with
  | nil => simp [assocUpdate, assocFind, h1]
  | cons p rest ih =>
    by_cases hp : p.1 = k
    · have h2 : ¬ p.1 = k2 := by rw [hp]; exact h1
      simp only [assocUpdate, if_pos hp, assocFind]
      simp [h1, h2]
    · simp only [assocUpdate, if_neg hp, assocFind]
      by_cases hp2 : p.1 = k2
      · simp [hp2]
      · simp [hp2, ih]

/-- How a publish rewrites the channel table, seen through lookup: the entry
of a channel receives the event exactly when its id is a member. -/
theorem assocFind_publish (l : List (Nat × Handle)) (mem : List Nat) (id : Nat)
    (e : Event) :
    assocFind id (l.map (fun p =>
        if p.1 ∈ mem then (p.1, ⟨p.2.capacity, p.2.delivered ++ [e]⟩) else p)) =
      (assocFind id l).map (fun h =>
        if id ∈ mem then ⟨h.capacity, h.delivered ++ [e]⟩ else h) := by
  induction l with
  | nil => simp [assocFind]
  | cons p rest ih =>
    by_cases hp : p.1 = id
    · subst hp
      by_cases hm : p.1 ∈ mem <;> simp [assocFind, hm]
    · by_cases hm : p.1 ∈ mem <;> simpa [assocFind, hp, hm] using ih

/-! ### removeFirst lemmas -/

theorem removeFirst_of_not_mem [DecidableEq α] (l : List α) (a : α) (h : a ∉ l) :
    removeFirst l a = l := by
  induction l with
  | nil => rfl
  | cons x xs ih =>
    have hx : x ≠ a := fun hh => h (hh ▸ List.mem_cons_self x xs)
    have hxs : a ∉ xs := fun hh => h (List.mem_cons_of_mem x hh)
    simp [removeFirst, hx, ih hxs]

theorem mem_of_mem_removeFirst [DecidableEq α] (l : List α) (a b : α)
    (h : b ∈ removeFirst l a) : b ∈ l := by
  induction l with
  | nil => simpa [removeFirst] using h
  | cons x xs ih =>
    by_cases hx : x = a
    · simp only [removeFirst, if_pos hx] at h
      exact List.mem_cons_of_mem x h
    · simp only [removeFirst, if_neg hx, List.mem_cons] at h
      rcases h with h | h
      · exact h ▸ List.mem_cons_self x xs
      · exact List.mem_cons_of_mem x (ih h)

theorem mem_removeFirst_of_ne [DecidableEq α] (l : List α) (a b : α)
    (hb : b ∈ l) (hne : b ≠ a) : b ∈ removeFirst l a := by
  induction l with
  | nil => simpa using hb
  | cons x xs ih =>
    by_cases hx : x = a
    · simp only [removeFirst, if_pos hx]
      rcases List.mem_cons.mp hb with h | h
      · exact absurd (h.trans hx) hne
      · exact h
    · simp only [removeFirst, if_neg hx, List.mem_cons]
      rcases List.mem_cons.mp hb with h | h
      · exact Or.inl h
      · exact Or.inr (ih h)

theorem not_mem_removeFirst_self [DecidableEq α] (l : List α) (a : α)
    (h : l.Nodup) : a ∉ removeFirst l a := by
  induction l with
  | nil => simp [removeFirst]
  | cons x xs ih =>
    rcases List.nodup_cons.mp h with ⟨hx, hxs⟩
    by_cases hxa : x = a
    · simp only [removeFirst, if_pos hxa]
      exact fun hh => hx (hxa ▸ hh)
    · simp only [removeFirst, if_neg hxa, List.mem_cons]
      rintro (h1 | h1)
      · exact hxa h1.symm
      · exact ih hxs h1

theorem nodup_removeFirst [DecidableEq α] (l : List α) (a : α) (h : l.Nodup) :
    (removeFirst l a).Nodup := by
  induction l with
  | nil => simpa [removeFirst] using h
  | cons x xs ih =>
    rcases List.nodup_cons.mp h with ⟨hx, hxs⟩
    by_cases hxa : x = a
    · simpa [removeFirst, hxa] using hxs
    · simp only [removeFirst, if_neg hxa]
      refine List.nodup_cons.mpr ⟨?_, ?_⟩
      · exact fun hh => hx (mem_of_mem_removeFirst xs a x hh)
      · exact ih hxs

/-! ### Delivery lemmas -/

/-- A channel that stays registered (no unsubscribe for it in `reqs`)
receives exactly the events published in `reqs`, appended in publish
order. -/
theorem delivered_runFrom (reqs : List Req) :
    ∀ (s : RoomState) (id : Nat) (q : Handle),
      id ∈ s.members → assocFind id s.handles = some q →
      Req.unsubscribe id ∉ reqs →
      assocFind id (runFrom s reqs).handles =
        some ⟨q.capacity, q.delivered ++ historyOf reqs⟩ := by
  induction reqs with
  | nil =>
    intro s id q hm hf _
    simpa [runFrom, historyOf] using hf
  | cons r rest ih =>
    intro s id q hm hf hn
    have hn1 : r ≠ Req.unsubscribe id := fun hh => hn (hh ▸ List.mem_cons_self r rest)
    have hn2 : Req.unsubscribe id ∉ rest := fun hh => hn (List.mem_cons_of_mem r hh)
    cases r with
    | subscribe =>
      simp only [runFrom, historyOf_subscribe]
      apply ih
      · simpa [stepReq, subscribeStep] using Or.inl hm
      · show assocFind id (s.handles ++ [(s.nextId, ⟨10, []⟩)]) = some q
        rw [assocFind_append, hf]
      · exact hn2
    | publish e =>
      simp only [runFrom, historyOf_publish]
      have hf2 : assocFind id (stepReq s (Req.publish e)).handles =
          some ⟨q.capacity, q.delivered ++ [e]⟩ := by
        show assocFind id (s.handles.map _) = _
        rw [assocFind_publish, hf]
        simp [hm]
      have hm2 : id ∈ (stepReq s (Req.publish e)).members := by
        simpa [stepReq, publishStep] using hm
      have := ih (stepReq s (Req.publish e)) id ⟨q.capacity, q.delivered ++ [e]⟩
        hm2 hf2 hn2
      simpa using this
    | unsubscribe id2 =>
      have hne : id ≠ id2 := by
        intro hh
        exact hn1 (by rw [hh])
      simp only [runFrom, historyOf_unsubscribe]
      apply ih
      · show id ∈ removeFirst s.members id2
        exact mem_removeFirst_of_ne s.members id2 id hm hne
      · exact hf
      · exact hn2

/-- A channel that is not registered and whose id is below the allocator
counter is never written to again: its table entry is unchanged by any
further requests. -/
theorem assocFind_frozen (reqs : List Req) :
    ∀ (s : RoomState) (id : Nat), id ∉ s.members → id < s.nextId →
      assocFind id (runFrom s reqs).handles = assocFind id s.handles := by
  induction reqs with
  | nil => intro s id _ _; rfl
  | cons r rest ih =>
    intro s id hm hlt
    cases r with
    | subscribe =>
      simp only [runFrom]
      have hne : id ≠ s.nextId := Nat.ne_of_lt hlt
      have h1 : id ∉ (stepReq s Req.subscribe).members := by
        simp only [stepReq, subscribeStep, List.mem_append, List.mem_singleton]
        rintro (hh | hh)
        · exact hm hh
        · exact hne hh
      have h2 : id < (stepReq s Req.subscribe).nextId := by
        simp only [stepReq, subscribeStep]
        omega
      rw [ih _ id h1 h2]
      show assocFind id (s.handles ++ [(s.nextId, ⟨10, []⟩)]) = assocFind id s.handles
      rw [assocFind_append]
      cases hcase : assocFind id s.handles with
      | some v => rfl
      | none => simp [assocFind, Ne.symm hne]
    | publish e =>
      simp only [runFrom]
      have h1 : id ∉ (stepReq s (Req.publish e)).members := by
        simpa [stepReq, publishStep] using hm
      have h2 : id < (stepReq s (Req.publish e)).nextId := by
        simpa [stepReq, publishStep] using hlt
      rw [ih _ id h1 h2]
      show assocFind id (s.handles.map _) = assocFind id s.handles
      rw [assocFind_publish]
      cases assocFind id s.handles with
      | some v => simp [hm]
      | none => simp
    | unsubscribe id2 =>
      simp only [runFrom]
      have h1 : id ∉ (stepReq s (Req.unsubscribe id2)).members := by
        intro hh
        exact hm (mem_of_mem_removeFirst s.members id2 id hh)
      have h2 : id < (stepReq s (Req.unsubscribe id2)).nextId := hlt
      rw [ih _ id h1 h2]
      rfl

/-! ### Reachable-state invariant -/

/-- Well-formedness of an actor state: the membership list holds no
duplicate channel, and every channel id in the membership list or the
channel table was produced by the allocator. Channels are distinct objects
in the source, so distinctness of ids models reachable states. -/
def WF (s : RoomState) : Prop :=
  s.members.Nodup ∧ (∀ i ∈ s.members, i < s.nextId) ∧ (∀ p ∈ s.handles, p.1 < s.nextId)

theorem WF_init : WF initRoomState := by
  refine ⟨List.nodup_nil, ?_, ?_⟩ <;> intro x hx <;> simp [initRoomState] at hx

theorem WF_stepReq (s : RoomState) (r : Req) (h : WF s) : WF (stepReq s r) := by
  obtain ⟨hnd, hmb, hhb⟩ := h
  cases r with
  | subscribe =>
    refine ⟨?_, ?_, ?_⟩
    · show (s.members ++ [s.nextId]).Nodup
      rw [List.nodup_append]
      exact ⟨hnd, List.nodup_singleton _,
        fun a ha hb => Nat.ne_of_lt (hmb a ha) (List.mem_singleton.mp hb ▸ rfl)⟩
    · intro i hi
      rcases List.mem_append.mp hi with hi | hi
      · exact Nat.lt_succ_of_lt (hmb i hi)
      · rw [List.mem_singleton.mp hi]; exact Nat.lt_succ_self _
    · intro p hp
      rcases List.mem_append.mp hp with hp | hp
      · exact Nat.lt_succ_of_lt (hhb p hp)
      · rw [List.mem_singleton.mp hp]; exact Nat.lt_succ_self _
  | publish e =>
    refine ⟨hnd, hmb, ?_⟩
    intro p hp
    rcases List.mem_map.mp hp with ⟨p0, hp0, hpe⟩
    have : p.1 = p0.1 := by
      by_cases hm : p0.1 ∈ s.members <;> simp [hm] at hpe <;> rw [← hpe]
    rw [this]
    exact hhb p0 hp0
  | unsubscribe id =>
    refine ⟨nodup_removeFirst s.members id hnd, ?_, hhb⟩
    intro i hi
    exact hmb i (mem_of_mem_removeFirst s.members id i hi)

theorem WF_runFrom (reqs : List Req) : ∀ s : RoomState, WF s → WF (runFrom s reqs) := by
  induction reqs with
  | nil => intro s h; exact h
  | cons r rest ih => intro s h; exact ih _ (WF_stepReq s r h)

theorem WF_run (reqs : List Req) : WF (run reqs) :=
  WF_runFrom reqs initRoomState WF_init

theorem assocFind_none_of_bound (l : List (Nat × Handle)) (n : Nat)
    (h : ∀ p ∈ l, p.1 < n) : assocFind n l = none := by
  induction l with
  | nil => rfl
  | cons p rest ih =>
    have hp : ¬ p.1 = n := Nat.ne_of_lt (h p (List.mem_cons_self p rest))
    simp only [assocFind, if_neg hp]
    exact ih (fun q hq => h q (List.mem_cons_of_mem p hq))

/-! ### Concrete test data -/

/-- A distinguishable message event, used as concrete test input. -/
def evN (n : Nat) : Event := ⟨"message", "user", Int.ofNat n, ""⟩

/-- Twenty-one distinct publishes: one more than the archive capacity. -/
def reqs21 : List Req := (List.range 21).map (fun n => Req.publish (evN n))

/-! ### Claim theorems -/

/-- C2: for every room and after every sequence of requests, the archive
holds at most 20 events; it equals the last-20 suffix of the publish
history (so a publish beyond 20 evicts exactly the oldest element), and
being literally a suffix of the history it neither reorders nor
deduplicates the retained events. -/
theorem archive_bounded_suffix (reqs : List Req) :
    (run reqs).archive.length ≤ 20 ∧
    (run reqs).archive = lastN 20 (historyOf reqs) ∧
    List.IsSuffix (run reqs).archive (historyOf reqs) := by
  have h := archive_run reqs
  refine ⟨?_, h, ?_⟩
  · rw [h, length_lastN]
    omega
  · rw [h]
    exact List.drop_suffix _ _

/-- C3: after a request sequence whose publish history holds N ≥ 20 events,
the archive equals exactly the last 20 published events, in publish
order. -/
theorem archive_eq_last20 (reqs : List Req) (h : 20 ≤ (historyOf reqs).length) :
    (run reqs).archive =
      (historyOf reqs).drop ((historyOf reqs).length - 20) ∧
    (run reqs).archive.length = 20 := by
  have ha := archive_run reqs
  constructor
  · rw [ha]
    rfl
  · rw [ha, length_lastN]
    omega

theorem archive_eq_last20_witness :
    (run reqs21).archive =
      (historyOf reqs21).drop ((historyOf reqs21).length - 20) ∧
    (run reqs21).archive.length = 20 :=
  archive_eq_last20 reqs21 (by decide)

/-- C1, counterexample to the claim as stated: after 21 publishes, the
subscription's archive snapshot concatenated with the events later
received on its live channel (none here) is not the full publish history
from room creation — the first published event was evicted from the
archive before the subscribe, so it is missing. -/
theorem snapshot_plus_live_ne_full_history :
    (subscribeStep (run reqs21)).1.Archive ++
        queueOf (subscribeStep (run reqs21)).2 (subscribeStep (run reqs21)).1.New
      ≠ historyOf reqs21 := by decide

/-- C1, amended: for any subscription, the archive snapshot concatenated
with the events subsequently received on the live channel equals the full
publish history of the room with the events evicted before the subscribe
removed — that is, the history minus its first `(number published before
the subscribe) - 20` events; in particular it is the entire history
whenever at most 20 events were published before the subscribe.  There is
no gap and no duplicate at the handoff, provided no cancellation occurs. -/
theorem snapshot_plus_live_eq_history_suffix (reqs1 reqs2 : List Req)
    (hc : Req.unsubscribe (subscribeStep (run reqs1)).1.New ∉ reqs2) :
    (subscribeStep (run reqs1)).1.Archive ++
        queueOf (runFrom (subscribeStep (run reqs1)).2 reqs2)
          (subscribeStep (run reqs1)).1.New
      = (historyOf reqs1 ++ historyOf reqs2).drop ((historyOf reqs1).length - 20) := by
  obtain ⟨hnd, hmb, hhb⟩ := WF_run reqs1
  have hfresh : assocFind (run reqs1).nextId (run reqs1).handles = none :=
    assocFind_none_of_bound _ _ hhb
  have hmem : (run reqs1).nextId ∈ (subscribeStep (run reqs1)).2.members := by
    simp [subscribeStep]
  have hfind : assocFind (run reqs1).nextId (subscribeStep (run reqs1)).2.handles =
      some ⟨10, []⟩ := by
    show assocFind _ ((run reqs1).handles ++ [((run reqs1).nextId, ⟨10, []⟩)]) = _
    rw [assocFind_append, hfresh]
    simp [assocFind]
  have hdel := delivered_runFrom reqs2 (subscribeStep (run reqs1)).2
    (run reqs1).nextId ⟨10, []⟩ hmem hfind hc
  have hq : queueOf (runFrom (subscribeStep (run reqs1)).2 reqs2) (run reqs1).nextId =
      historyOf reqs2 := by
    simp [queueOf, hdel]
  have harch : (subscribeStep (run reqs1)).1.Archive = lastN 20 (historyOf reqs1) :=
    archive_run reqs1
  show (subscribeStep (run reqs1)).1.Archive ++
      queueOf (runFrom (subscribeStep (run reqs1)).2 reqs2) (run reqs1).nextId = _
  rw [hq, harch, lastN, List.drop_append_of_le_length (Nat.sub_le _ _)]

theorem snapshot_plus_live_eq_history_suffix_witness :
    (subscribeStep (run [])).1.Archive ++
        queueOf (runFrom (subscribeStep (run [])).2 [Req.publish (evN 0)])
          (subscribeStep (run [])).1.New
      = (historyOf [] ++ historyOf [Req.publish (evN 0)]).drop
          ((historyOf ([] : List Req)).length - 20) :=
  snapshot_plus_live_eq_history_suffix [] [Req.publish (evN 0)] (by decide)

/-- C9: once the actor has processed the unsubscribe (removal step) for a
channel, the channel's delivered queue never changes again, whatever
requests — publishes included — the actor processes afterwards; so an event
published strictly after the removal is never delivered on that channel.
The hypotheses say the state is reachable: no duplicate membership entries
and the channel id came from the allocator. -/
theorem publish_after_cancel_never_delivered (s : RoomState) (id : Nat)
    (reqs : List Req) (hnd : s.members.Nodup) (hlt : id < s.nextId) :
    queueOf (runFrom (unsubscribeStep s id) reqs) id =
      queueOf (unsubscribeStep s id) id := by
  have h1 : id ∉ (unsubscribeStep s id).members :=
    not_mem_removeFirst_self s.members id hnd
  have h2 : id < (unsubscribeStep s id).nextId := hlt
  have hfind := assocFind_frozen reqs (unsubscribeStep s id) id h1 h2
  simp [queueOf, hfind]

theorem publish_after_cancel_never_delivered_witness :
    queueOf (runFrom (unsubscribeStep (subscribeStep initRoomState).2 0)
        [Req.publish (evN 0)]) 0 =
      queueOf (unsubscribeStep (subscribeStep initRoomState).2 0) 0 :=
  publish_after_cancel_never_delivered (subscribeStep initRoomState).2 0
    [Req.publish (evN 0)] (by decide) (by decide)

/-- One observable action inside the actor's processing of a publish. -/
inductive RoomAction where
  | deliver (id : Nat) (e : Event)
  | evict
  | append (e : Event)
deriving DecidableEq, Repr

/-- The publish case as the trace of its observable actions, in source
statement order (chat.go lines 108-122): first the delivery loop over the
subscriber list (lines 110-116), then the archive eviction check (lines
119-121) and the append (line 122). -/
def publishActions (s : RoomState) (e : Event) : List RoomAction :=
  s.members.map (fun i => RoomAction.deliver i e)
    ++ ((if 20 ≤ s.archive.length then [RoomAction.evict] else [])
        ++ [RoomAction.append e])

/-- C4, counterexample to the claim as stated: with one subscriber and an
empty archive, processing a publish performs the delivery before the
archive append — not the claimed append-then-deliver order. -/
theorem publish_archives_first_false :
    publishActions (subscribeStep initRoomState).2 (evN 0) =
        [RoomAction.deliver 0 (evN 0), RoomAction.append (evN 0)] ∧
    publishActions (subscribeStep initRoomState).2 (evN 0) ≠
        [RoomAction.append (evN 0), RoomAction.deliver 0 (evN 0)] := by
  exact ⟨by decide, by decide⟩

/-- C4, amended: processing a publish, the actor first delivers a copy of
the event to every channel currently in the membership list, in the list's
iteration order, and then updates the archive (evicting the oldest element
if it already holds 20).  The resulting state has the event appended to the
archive (after the possible eviction) and to the delivered queue of exactly
the channels that were members. -/
theorem publish_delivers_then_archives (s : RoomState) (e : Event) :
    publishActions s e =
        (s.members.map (fun i => RoomAction.deliver i e))
          ++ ((if 20 ≤ s.archive.length then [RoomAction.evict] else [])
              ++ [RoomAction.append e]) ∧
    (publishStep s e).archive =
        (if 20 ≤ s.archive.length then s.archive.tail else s.archive) ++ [e] ∧
    (publishStep s e).members = s.members ∧
    ∀ (id : Nat) (h : Handle), assocFind id s.handles = some h →
      assocFind id (publishStep s e).handles =
        some (if id ∈ s.members then ⟨h.capacity, h.delivered ++ [e]⟩ else h) := by
  refine ⟨rfl, rfl, rfl, ?_⟩
  intro id h hf
  show assocFind id (s.handles.map _) = _
  rw [assocFind_publish, hf]
  by_cases hm : id ∈ s.members <;> simp [hm]

theorem publish_delivers_then_archives_witness :
    assocFind 0 (publishStep (subscribeStep initRoomState).2 (evN 0)).handles =
      some ⟨10, [evN 0]⟩ := by
  have h := (publish_delivers_then_archives (subscribeStep initRoomState).2
    (evN 0)).2.2.2 0 ⟨10, []⟩ (by decide)
  exact h.trans (by decide)

/-- C5: the subscribe handshake is a total function (always succeeds, no
error condition); its reply pairs the room's current archive, unchanged and
in order, with a fresh channel whose delivered queue is empty and whose
buffer capacity is 10, and that channel is in the membership list of the
state from which the reply is sent.  The hypothesis says the allocator
counter bounds the existing channel ids, as in every reachable state. -/
theorem subscribe_spec (s : RoomState)
    (hb : ∀ p ∈ s.handles, p.1 < s.nextId) :
    (subscribeStep s).1.Archive = s.archive ∧
    (subscribeStep s).2.members = s.members ++ [(subscribeStep s).1.New] ∧
    assocFind (subscribeStep s).1.New (subscribeStep s).2.handles =
      some ⟨10, []⟩ ∧
    (subscribeStep s).2.archive = s.archive := by
  refine ⟨rfl, rfl, ?_, rfl⟩
  show assocFind s.nextId (s.handles ++ [(s.nextId, ⟨10, []⟩)]) = some ⟨10, []⟩
  rw [assocFind_append, assocFind_none_of_bound s.handles s.nextId hb]
  simp [assocFind]

theorem subscribe_spec_witness :
    (subscribeStep initRoomState).1.Archive = initRoomState.archive ∧
    (subscribeStep initRoomState).2.members =
      initRoomState.members ++ [(subscribeStep initRoomState).1.New] ∧
    assocFind (subscribeStep initRoomState).1.New
        (subscribeStep initRoomState).2.handles = some ⟨10, []⟩ ∧
    (subscribeStep initRoomState).2.archive = initRoomState.archive :=
  subscribe_spec initRoomState (by intro p hp; simp [initRoomState] at hp)

/-- C8: unsubscription is idempotent: presenting a channel that is not in
the membership list leaves the actor state completely unchanged (and the
step is total, so no error is raised); and since the removal step removes
the channel from a duplicate-free membership list, a second unsubscribe for
the same channel is a no-op. -/
theorem unsubscribe_idempotent (s : RoomState) (id : Nat) :
    (id ∉ s.members → unsubscribeStep s id = s) ∧
    (s.members.Nodup →
      unsubscribeStep (unsubscribeStep s id) id = unsubscribeStep s id) := by
  constructor
  · intro h
    show RoomState.mk s.archive (removeFirst s.members id) s.handles s.nextId = s
    rw [removeFirst_of_not_mem s.members id h]
  · intro hnd
    have h1 : id ∉ removeFirst s.members id :=
      not_mem_removeFirst_self s.members id hnd
    show RoomState.mk _ (removeFirst (removeFirst s.members id) id) _ _ = _
    rw [removeFirst_of_not_mem (removeFirst s.members id) id h1]
    rfl

theorem unsubscribe_idempotent_witness :
    unsubscribeStep (subscribeStep initRoomState).2 5 =
      (subscribeStep initRoomState).2 ∧
    unsubscribeStep (unsubscribeStep (subscribeStep initRoomState).2 0) 0 =
      unsubscribeStep (subscribeStep initRoomState).2 0 :=
  ⟨(unsubscribe_idempotent (subscribeStep initRoomState).2 5).1 (by decide),
   (unsubscribe_idempotent (subscribeStep initRoomState).2 0).2 (by decide)⟩

/-! ### The chatRooms registry and the socket handlers -/

/-- One chat room as reachable from the `chatRooms` map: its credential
mapping (`userList`, chat.go line 22) and the state of its actor. -/
structure Room where
  userList : List (String × String)
  state : RoomState
deriving DecidableEq, Repr

/-- The process-wide `chatRooms` map (chat.go line 14), as an association
list from room id to room. -/
abbrev ServerState := List (String × Room)

/-- `strings.Split(src, "|")` of the handlers (chat.go lines 149, 178). -/
def goSplit (src : String) : List String := src.splitOn "|"

/-- The field-indexing step `data[0], data[1], data[2]` of the register and
login handlers (chat.go lines 150-152 and 179-181).  `none` models the
out-of-bounds slice access that happens when the payload splits into fewer
than 3 fields. -/
def splitFields (src : String) : Option (String × String × String) :=
  match goSplit src with
  | a :: b :: c :: _ => some (a, b, c)
  | _ => none

/-- The register handler after field extraction (chat.go lines 156-173): if
no room with this id exists, create one (fresh actor, empty credential map)
and record the user/password pair; otherwise write the pair into the
existing room's credential map. -/
def registerStep (st : ServerState) (roomID userID userPw : String) :
    ServerState :=
  match assocFind roomID st with
  | none => assocUpdate roomID ⟨[(userID, userPw)], initRoomState⟩ st
  | some room =>
      assocUpdate roomID ⟨assocUpdate userID userPw room.userList, room.state⟩ st

/-- One datum emitted to the connection that sent the request. -/
inductive Emission where
  | error (msg : String)
  | event (e : Event)
deriving DecidableEq, Repr

/-- The login handler after field extraction (chat.go lines 185-235).  The
three failure branches each emit one "error" message and touch nothing.
The success branch subscribes, publishes the join event (`Join`, chat.go
line 207; `now` stands for the wall-clock stamp used by `NewEvent`) and
emits the archive snapshot to the client.  The result is the list of data
emitted to this connection, and the updated registry. -/
def loginStep (st : ServerState) (roomID userID userPw : String) (now : Int) :
    List Emission × ServerState :=
  match assocFind roomID st with
  | none =>
      ([.error ("Chat room with room id " ++ roomID ++ " doesn't exist")], st)
  | some room =>
      match assocFind userID room.userList with
      | none =>
          ([.error "You're not found in the user list. Please register first"],
           st)
      | some pw =>
          if pw ≠ userPw then
            ([.error "Password is incorrect!"], st)
          else
            let p := subscribeStep room.state
            let s2 := publishStep p.2 ⟨"join", userID, now, ""⟩
            (p.1.Archive.map Emission.event,
             assocUpdate roomID ⟨room.userList, s2⟩ st)

/-- C6: the handlers' field extraction is out of bounds exactly when the
pipe-delimited payload splits into fewer than 3 fields; with at least 3
fields no out-of-bounds access occurs. -/
theorem splitFields_oob_iff (src : String) :
    splitFields src = none ↔ (goSplit src).length < 3 := by
  unfold splitFields
  rcases h : goSplit src with _ | ⟨a, _ | ⟨b, _ | ⟨c, rest⟩⟩⟩ <;> simp

/-- C7: a login that fails — room not found, user not found, or password
mismatch — emits exactly one "error" datum, with a descriptive string, to
the offending connection only, and returns the registry unchanged: no join
event is published and no room's archive, membership or credential map is
modified. -/
theorem login_failure_noop (st : ServerState) (roomID userID userPw : String)
    (now : Int)
    (h : assocFind roomID st = none
      ∨ ∃ room, assocFind roomID st = some room ∧
          (assocFind userID room.userList = none
            ∨ ∃ pw, assocFind userID room.userList = some pw ∧ pw ≠ userPw)) :
    (∃ msg, (loginStep st roomID userID userPw now).1 = [Emission.error msg]) ∧
    (loginStep st roomID userID userPw now).2 = st := by
  rcases h with h | ⟨room, hr, h⟩
  · refine ⟨⟨"Chat room with room id " ++ roomID ++ " doesn't exist", ?_⟩, ?_⟩ <;>
      simp [loginStep, h]
  · rcases h with h | ⟨pw, hp, hne⟩
    · refine
        ⟨⟨"You're not found in the user list. Please register first", ?_⟩, ?_⟩ <;>
        simp [loginStep, hr, h]
    · refine ⟨⟨"Password is incorrect!", ?_⟩, ?_⟩ <;> simp [loginStep, hr, hp, hne]

theorem login_failure_noop_witness :
    (∃ msg, (loginStep [] "R1" "alice" "pw" 0).1 = [Emission.error msg]) ∧
    (loginStep [] "R1" "alice" "pw" 0).2 = [] :=
  login_failure_noop [] "R1" "alice" "pw" 0 (Or.inl rfl)

theorem map_event_ne_singleton_error (l : List Event) (msg : String) :
    l.map Emission.event ≠ [Emission.error msg] := by
  cases l with
  | nil => simp
  | cons e rest => simp

/-- C10: registering a user id already present in a room's credential map
overwrites the stored password (last registration wins): afterwards the
room's actor state is untouched, the user's stored password is the new one,
every other user's entry and every other room are unchanged, and a login
for this user fails with an "error" exactly when it presents anything other
than the most recently registered password. -/
theorem register_last_wins (st : ServerState) (roomID userID userPw : String)
    (room : Room) (oldPw : String)
    (hr : assocFind roomID st = some room)
    (hu : assocFind userID room.userList = some oldPw) :
    ∃ room2,
      assocFind roomID (registerStep st roomID userID userPw) = some room2 ∧
      room2.state = room.state ∧
      assocFind userID room2.userList = some userPw ∧
      (∀ u, u ≠ userID →
        assocFind u room2.userList = assocFind u room.userList) ∧
      (∀ r, r ≠ roomID →
        assocFind r (registerStep st roomID userID userPw) = assocFind r st) ∧
      (∀ q now,
        (∃ msg, (loginStep (registerStep st roomID userID userPw)
            roomID userID q now).1 = [Emission.error msg]) ↔ q ≠ userPw) := by
  have hreg : registerStep st roomID userID userPw =
      assocUpdate roomID ⟨assocUpdate userID userPw room.userList, room.state⟩ st := by
    simp [registerStep, hr]
  refine ⟨⟨assocUpdate userID userPw room.userList, room.state⟩, ?_, rfl, ?_, ?_, ?_, ?_⟩
  · rw [hreg]
    exact assocFind_update_self roomID _ st
  · exact assocFind_update_self userID userPw room.userList
  · intro u hu2
    exact assocFind_update_ne userID u userPw room.userList hu2
  · intro r hr2
    rw [hreg]
    exact assocFind_update_ne roomID r _ st hr2
  · intro q now
    have hfind : assocFind roomID (registerStep st roomID userID userPw) =
        some ⟨assocUpdate userID userPw room.userList, room.state⟩ := by
      rw [hreg]
      exact assocFind_update_self roomID _ st
    have hpw : assocFind userID (assocUpdate userID userPw room.userList) =
        some userPw := assocFind_update_self userID userPw room.userList
    constructor
    · rintro ⟨msg, hmsg⟩
      intro heq
      subst heq
      simp [loginStep, hfind, hpw] at hmsg
      exact map_event_ne_singleton_error _ msg hmsg
    · intro hne
      refine ⟨"Password is incorrect!", ?_⟩
      simp [loginStep, hfind, hpw, hne, Ne.symm hne]

theorem register_last_wins_witness :
    ∃ msg,
      (loginStep (registerStep (registerStep [] "R1" "alice" "pw1")
          "R1" "alice" "pw2") "R1" "alice" "pw1" 0).1 = [Emission.error msg] := by
  obtain ⟨room2, h1, h2, h3, h4, h5, h6⟩ :=
    register_last_wins (registerStep [] "R1" "alice" "pw1") "R1" "alice" "pw2"
      ⟨[("alice", "pw1")], initRoomState⟩ "pw1" (by decide) (by decide)
  exact (h6 "pw1" 0).mpr (by decide)

end GoChat
